import Mathlib

/-!
Shallow embedding of the obsidian-smart-search plugin core
(src/src/searchIndex.ts and src/src/nlpProcessor.ts), together with the
exclusion-rule operations that the plugin entry point (main.ts) calls on the
index but whose implementation is not part of the source snapshot; those are
modelled from the specification and marked as such.

Modelling conventions:
  - JavaScript strings are modelled by Lean `String`; `s.length` is modelled
    by codepoint count (the two agree outside astral-plane characters).
  - `Map` objects are modelled by association lists in insertion order,
    `Record` objects by association lists with in-place overwrite.
  - The regular expression `\b term \b` (the source never escapes `term`;
    all terms that reach it are plain words) is modelled by a literal
    whole-word matcher: the term occurs in the text with a word/non-word
    boundary on each side, where a word character is [A-Za-z0-9_] as in
    JavaScript `\w`.
  - IEEE doubles are modelled by exact rationals for the additive score
    cascade and by real numbers once the score is divided by a logarithm.
-/

namespace SmartSearch

/-- A whitespace character of the regex class backslash-s (ASCII range),
also the whitespace trimmed by String.prototype.trim. -/
def isJsWs (c : Char) : Bool :=
  c = ' ' || c = '\t' || c = '\n' || c = '\r' || c = '\x0b' || c = '\x0c'

/-- String.prototype.toLowerCase (character-wise; all data the source
lower-cases is ASCII). -/
def toLowerStr (s : String) : String :=
  String.mk (s.data.map Char.toLower)

/-- Helper for splitting on a single separator character. -/
def splitOnCharAux (sep : Char) : List Char → List Char → List String
  | [], acc => [String.mk acc.reverse]
  | c :: rest, acc =>
      if c = sep then String.mk acc.reverse :: splitOnCharAux sep rest []
      else splitOnCharAux sep rest (c :: acc)

/-- String.prototype.split with a single-character separator (the source only
ever splits on a newline, a colon or a pipe). -/
def splitOnChar (sep : Char) (s : String) : List String :=
  splitOnCharAux sep s.data []

/-- String.prototype.trim. -/
def trimStr (s : String) : String :=
  String.mk (((s.data.dropWhile isJsWs).reverse.dropWhile isJsWs).reverse)

/-- JavaScript word character, the `\w` class: letters, digits, underscore. -/
def isWordChar (c : Char) : Bool :=
  c.isAlpha || c.isDigit || c = '_'

/-- Word-character test lifted to an optional character; the edge of the
string counts as a non-word character, as for the regex boundary `\b`. -/
def isWordO : Option Char → Bool
  | none => false
  | some c => isWordChar c

/-- `startsWithL t p` is true when the character list `p` is an initial
segment of `t`. -/
def startsWithL : List Char → List Char → Bool
  | _, [] => true
  | [], _ :: _ => false
  | a :: as, b :: bs => a = b && startsWithL as bs

/-- `containsSubL t p` is true when `p` occurs contiguously inside `t`;
this models JavaScript `t.includes(p)`. -/
def containsSubL : List Char → List Char → Bool
  | t, p => startsWithL t p ||
      (match t with
       | [] => false
       | _ :: rest => containsSubL rest p)

/-- `containsSub text term` models `text.includes(term)`. -/
def containsSub (text term : String) : Bool :=
  containsSubL text.data term.data

/-- Whole-word match of `p` at the current scan position, where `pc` is the
character immediately before the position (none at the start of the text):
`p` must be an initial segment of `t` with a `\b` boundary on each side.
For an empty `p` the two boundaries of `\b\b` coincide in one position. -/
def matchWordAt (pc : Option Char) (t p : List Char) : Bool :=
  match p with
  | [] => isWordO pc != isWordO t.head?
  | f :: rest =>
      startsWithL t (f :: rest) &&
      (isWordO pc != isWordChar f) &&
      (isWordO ((f :: rest).getLast?) != isWordO ((t.drop (f :: rest).length).head?))

/-- Scan `t` for a whole-word occurrence of `p`; `pc` is the character just
before the current position. -/
def containsWordAux (pc : Option Char) : List Char → List Char → Bool
  | t, p =>
      matchWordAt pc t p ||
      (match t with
       | [] => false
       | c :: rest => containsWordAux (some c) rest p)

/-- Models the source helper
`checkWordBoundary(text, term) = new RegExp('\\b' + term + '\\b', 'i').test(text)`.
Both arguments are lower-cased before the test, which renders the `i` flag
(every call site in the source already passes lower-cased data). -/
def checkWordBoundary (text term : String) : Bool :=
  containsWordAux none (toLowerStr text).data (toLowerStr term).data

/-! ## Data model (interfaces ProcessedText, ProcessedQuery, IndexedFile) -/

/-- Output of NLPProcessor.processText. -/
structure ProcessedText where
  tokens : List String
  entities : List String
  topics : List String
  sentiment : Int
deriving DecidableEq, Repr

/-- Output of NLPProcessor.processQuery. -/
structure ProcessedQuery where
  intent : String
  keywords : List String
  entities : List String
  relatedTerms : List String
deriving DecidableEq, Repr

/-- One markdown table: header cells and data rows. -/
structure TableBlock where
  headers : List String
  rows : List (List String)
deriving DecidableEq, Repr

/-- The structuredContent field of an IndexedFile. -/
structure StructuredContent where
  headers : List String
  lists : List String
  tables : List TableBlock
deriving DecidableEq, Repr

/-- The per-document index record (interface IndexedFile). -/
structure IndexedFile where
  path : String
  filename : String
  lastModified : Int
  processed : ProcessedText
  tags : List String
  frontmatter : List (String × String)
  tableContent : List String
  structuredContent : StructuredContent
deriving DecidableEq, Repr

/-- The index `Map<string, IndexedFile>`, modelled as an association list in
insertion order, with the JavaScript Map operations below. -/
abbrev IndexMap := List (String × IndexedFile)

/-- `Map.get`: the value stored under the first (unique) occurrence of a key. -/
def mapGet : IndexMap → String → Option IndexedFile
  | [], _ => none
  | (k, v) :: rest, p => if k = p then some v else mapGet rest p

/-- `Map.set`: overwrite in place when the key exists, append otherwise. -/
def mapSet : IndexMap → String → IndexedFile → IndexMap
  | [], k, v => [(k, v)]
  | (k', v') :: rest, k, v =>
      if k' = k then (k', v) :: rest else (k', v') :: mapSet rest k v

/-- `Map.delete`: drop every entry stored under the key. -/
def mapDelete (s : IndexMap) (p : String) : IndexMap :=
  s.filter (fun kv => kv.1 ≠ p)

/-- `Map.values()`, in insertion order. -/
def mapValues (s : IndexMap) : List IndexedFile :=
  s.map Prod.snd

/-! ## Tag extraction (extractTags, the global regex matching a hash sign
followed by word characters, slashes and hyphens) -/

/-- A character in the regex class of word characters, slash and hyphen. -/
def isTagChar (c : Char) : Bool :=
  isWordChar c || c = '/' || c = '-'

/-- Scan for non-overlapping matches of `#` followed by one or more tag
characters, as `matchAll` does: after a match the scan resumes past it,
after a failed `#` it resumes at the next character. The fuel argument makes
the recursion structural; every step consumes at least one character, so with
fuel equal to the text length the zero-fuel arm is never reached. -/
def extractTagsAux : Nat → List Char → List String
  | _, [] => []
  | 0, _ :: _ => []
  | fuel + 1, c :: rest =>
      if c = '#' then
        let run := rest.takeWhile isTagChar
        if run.isEmpty then extractTagsAux fuel rest
        else ("#" ++ String.mk run) :: extractTagsAux fuel (rest.drop run.length)
      else extractTagsAux fuel rest

/-- Models `extractTags`: every match of the global tag regex, lower-cased,
in scan order and without deduplication. -/
def extractTags (content : String) : List String :=
  (extractTagsAux content.data.length content.data).map toLowerStr

/-! ## Frontmatter extraction (extractFrontmatter, regex `^---\n([\s\S]*?)\n---`) -/

/-- The lazy capture group: the shortest prefix of the remaining text that is
immediately followed by the four characters newline, dash, dash, dash. -/
def fmFindCap : List Char → Option (List Char)
  | [] => none
  | c :: rest =>
      if startsWithL (c :: rest) ['\n', '-', '-', '-'] then some []
      else (fmFindCap rest).map (fun l => c :: l)

/-- The anchored regex match: the text must begin with `---` and a newline,
and the captured block runs up to the first later newline followed by three
dashes (the closing dashes need not form a whole line of their own). -/
def fmMatch (content : String) : Option String :=
  if startsWithL content.data ['-', '-', '-', '\n'] then
    (fmFindCap (content.data.drop 4)).map String.mk
  else none

/-- JavaScript object assignment `o[k] = v`: overwrite in place when the key
exists, append otherwise. -/
def fmInsert : List (String × String) → String → String → List (String × String)
  | [], k, v => [(k, v)]
  | (k', v') :: rest, k, v =>
      if k' = k then (k', v) :: rest else (k', v') :: fmInsert rest k v

/-- Processing of one captured line: split on `:`; a line whose key part is
nonempty and which has at least one value part stores the trimmed key mapped
to the re-joined value parts, trimmed; other lines are skipped. -/
def fmStep (acc : List (String × String)) (line : String) : List (String × String) :=
  match splitOnChar ':' line with
  | [] => acc
  | key :: vals =>
      if vals.isEmpty then acc
      else if key = "" then acc
      else fmInsert acc (trimStr key) (trimStr (String.intercalate ":" vals))

/-- Models `extractFrontmatter`: on a regex match, each captured line is
processed by `fmStep`; an absent or unmatched block yields the empty
mapping. -/
def extractFrontmatter (content : String) : List (String × String) :=
  match fmMatch content with
  | none => []
  | some cap => (splitOnChar '\n' cap).foldl fmStep []

/-! ## Markdown structure parser (parseMarkdownContent)

The three source regexes run with the m flag, so headers and list items are
matched line by line; the table regex is matched as a line-aligned block:
a pipe-delimited header segment ending the line, a separator line of pipes,
dashes and whitespace, and one or more data lines. -/

/-- One line against the header regex: one to six hash characters, at least
one whitespace character, then at least one further character; the capture is
everything after the (greedy, backtrackable) whitespace run, trimmed. -/
def matchHeaderLine (l : String) : Option String :=
  let cs := l.data
  let k := (cs.takeWhile (fun c => c = '#')).length
  if 1 ≤ k ∧ k ≤ 6 then
    let rest := cs.drop k
    let ws := rest.takeWhile isJsWs
    if ws.length = 0 then none
    else
      let cap := rest.drop ws.length
      if 1 ≤ cap.length then some (trimStr (String.mk cap))
      else if 2 ≤ rest.length then some "" else none
  else none

/-- One line against the list regex: a bullet marker, at least one whitespace
character, then at least one further character; capture trimmed. -/
def matchListLine (l : String) : Option String :=
  match l.data with
  | [] => none
  | c :: rest =>
      if c = '-' || c = '*' || c = '+' then
        let ws := rest.takeWhile isJsWs
        if ws.length = 0 then none
        else
          let cap := rest.drop ws.length
          if 1 ≤ cap.length then some (trimStr (String.mk cap))
          else if 2 ≤ rest.length then some "" else none
      else none

/-- The header segment of a table: the line must end with a pipe, and the
capture runs from the first pipe of the line to its last pipe (the greedy
dot-plus), containing at least one character. -/
def pipeLineMid (l : String) : Option String :=
  let cs := l.data
  let rest := cs.drop ((cs.takeWhile (fun c => c ≠ '|')).length)
  match rest with
  | '|' :: tl =>
      if 2 ≤ tl.length ∧ tl.getLast? = some '|' then some (String.mk tl.dropLast)
      else none
  | _ => none

/-- A table separator line: starts and ends with a pipe and consists only of
pipes, dashes and whitespace, with at least one character between the pipes. -/
def isSepLine (l : String) : Bool :=
  3 ≤ l.data.length && l.data.head? = some '|' && l.data.getLast? = some '|' &&
    l.data.all (fun c => c = '-' || c = '|' || isJsWs c)

/-- A table data line: starts and ends with a pipe with at least one
character in between. -/
def isDataLine (l : String) : Bool :=
  3 ≤ l.data.length && l.data.head? = some '|' && l.data.getLast? = some '|'

/-- Split a cell row or header segment on pipes, trim each cell, and drop the
cells that are empty after trimming (the filter(Boolean) of the source). -/
def splitCells (seg : String) : List String :=
  ((splitOnChar '|' seg).map trimStr).filter (fun c => c ≠ "")

/-- Scan the lines for table blocks; after a match the scan resumes past the
consumed data lines, as the global regex does via lastIndex. The fuel
argument makes the recursion structural; every step consumes at least one
line, so with fuel equal to the line count the zero-fuel arm is never
reached. -/
def scanTablesAux : Nat → List String → List TableBlock
  | _, [] => []
  | 0, _ :: _ => []
  | fuel + 1, l :: rest =>
      match pipeLineMid l with
      | some mid =>
          (match rest with
           | sep :: rest2 =>
              if isSepLine sep then
                let dataLines := rest2.takeWhile isDataLine
                if dataLines.isEmpty then scanTablesAux fuel (sep :: rest2)
                else
                  { headers := splitCells mid,
                    rows := dataLines.map splitCells } ::
                    scanTablesAux fuel (rest2.drop dataLines.length)
              else scanTablesAux fuel (sep :: rest2)
           | [] => [])
      | none => scanTablesAux fuel rest

/-- The table scan over a line list. -/
def scanTables (lines : List String) : List TableBlock :=
  scanTablesAux lines.length lines

/-- Models `parseMarkdownContent`. -/
def parseMarkdownContent (content : String) : StructuredContent :=
  let lines := splitOnChar '\n' content
  { headers := lines.filterMap matchHeaderLine,
    lists := lines.filterMap matchListLine,
    tables := scanTables lines }

/-! ## Index mutation (indexFile, updateFile, removeFile)

The text analyzer (NLPProcessor.processText) is an external collaborator; the
operations are parameterized by it. The vault read is modelled by passing the
raw text, and the TFile argument by its path, basename and mtime. -/

/-- Models `indexFile`: parse structure, flatten table content, analyze,
extract tags and frontmatter, and upsert the record under the path. -/
def indexFile (analyze : String → ProcessedText) (s : IndexMap)
    (path filename : String) (mtime : Int) (content : String) : IndexMap :=
  let structured := parseMarkdownContent content
  let tableContent := structured.tables.flatMap (fun t => t.headers ++ t.rows.flatten)
  let processed := analyze content
  let tags := extractTags content
  let frontmatter := extractFrontmatter content
  mapSet s path
    { path := path, filename := filename, lastModified := mtime,
      processed := processed, tags := tags, frontmatter := frontmatter,
      tableContent := tableContent, structuredContent := structured }

/-- Models `updateFile`: skip when a record exists for the path with the same
mtime, otherwise index the file. -/
def updateFile (analyze : String → ProcessedText) (s : IndexMap)
    (path filename : String) (mtime : Int) (content : String) : IndexMap :=
  match mapGet s path with
  | some existing =>
      if existing.lastModified = mtime then s
      else indexFile analyze s path filename mtime content
  | none => indexFile analyze s path filename mtime content

/-- Models `removeFile`. -/
def removeFile (s : IndexMap) (path : String) : IndexMap :=
  mapDelete s path

/-- Instrumentation for the idempotence property: how many times a call to
`updateFile` with these arguments invokes the analyzer (the body of
`indexFile` calls `processText` exactly once, the skip path not at all). -/
def updateFileAnalyzerCalls (s : IndexMap) (path : String) (mtime : Int) : Nat :=
  match mapGet s path with
  | some existing => if existing.lastModified = mtime then 0 else 1
  | none => 1

/-! ## Semantic expansion (emotionMap, getRelatedTerms) -/

/-- The emotion cluster table, in source insertion order. -/
def emotionMap : List (String × List String) :=
  [("anger", ["rage", "fury", "pissed-off", "angry", "mad", "irritated"]),
   ("fear", ["anxiety", "anxious", "scared", "terrified", "worried"]),
   ("joy", ["happy", "joyous", "play", "playful", "excited", "enthusiastic"]),
   ("sadness", ["sad", "lonely", "panic", "depressed", "melancholy"]),
   ("love", ["care", "tender", "loving", "affection", "attachment"]),
   ("desire", ["lust", "horny", "wanting", "craving", "yearning"])]

/-- Models `getRelatedTerms`: the first cluster whose key or members contain
the lower-cased term (case-insensitively) yields the key followed by all
members; otherwise the empty list. -/
def getRelatedTerms (term : String) : List String :=
  let lowerTerm := toLowerStr term
  match emotionMap.find?
      (fun e => e.1 = lowerTerm || e.2.any (fun r => toLowerStr r = lowerTerm)) with
  | some e => e.1 :: e.2
  | none => []

/-! ## Relevance scoring (calculateRelevanceScore) -/

/-- The document content as scored: tokens joined with single spaces, then
lower-cased. -/
def contentOf (f : IndexedFile) : String :=
  toLowerStr (String.intercalate " " f.processed.tokens)

/-- The per-term score cascade from the body of `calculateRelevanceScore`,
mirroring the source control flow: a filename whole-word hit scores 2 and
short-circuits; a header whole-word hit adds 3 and short-circuits through the
statically true `termScore >= 3` check; otherwise the content contributes 1
for a whole-word hit, else 0.5 for a substring hit; finally, while the
accumulated term score is below 2, the first whole-word hit among the
flattened table cells adds 2. -/
def termContribution (f : IndexedFile) (lowerTerm : String) : ℚ :=
  if checkWordBoundary (toLowerStr f.filename) lowerTerm then 2
  else
    let afterHeaders : ℚ :=
      if (f.structuredContent.headers.map toLowerStr).any
          (fun h => checkWordBoundary h lowerTerm) then 3 else 0
    if 3 ≤ afterHeaders then afterHeaders
    else
      let afterContent : ℚ :=
        if checkWordBoundary (contentOf f) lowerTerm then afterHeaders + 1
        else if containsSub (contentOf f) lowerTerm then afterHeaders + 1/2
        else afterHeaders
      if afterContent < 2 then
        if f.tableContent.any (fun t => checkWordBoundary (toLowerStr t) lowerTerm) then
          afterContent + 2
        else afterContent
      else afterContent

/-- The raw document score: the sum of the per-term contributions. -/
def rawScore (f : IndexedFile) (lowerTerms : List String) : ℚ :=
  (lowerTerms.map (termContribution f)).sum

/-- The fast-rejection test at the top of `calculateRelevanceScore`: some
search term occurs as a substring of the content. -/
def quickCheck (f : IndexedFile) (lowerTerms : List String) : Bool :=
  lowerTerms.any (fun term => containsSub (contentOf f) term)

/-- Models `calculateRelevanceScore`: zero on fast rejection, otherwise the
raw score normalized by the logarithm of the capped content length. -/
noncomputable def calculateRelevanceScore (f : IndexedFile) (lowerTerms : List String) : ℝ :=
  if quickCheck f lowerTerms then
    (rawScore f lowerTerms : ℝ) / Real.log ((min (contentOf f).length 5000 : ℕ) + 1)
  else 0

/-- The loop test `score > 0` of `rankResults`. In IEEE arithmetic the score
`raw / log(min(len, 5000) + 1)` is positive exactly when the document passed
the quick check and its raw score is positive: the raw score and the
logarithm are nonnegative, and a positive raw score divided by a zero
logarithm gives positive infinity. -/
def scorePos (f : IndexedFile) (lowerTerms : List String) : Bool :=
  quickCheck f lowerTerms && decide ((0 : ℚ) < rawScore f lowerTerms)

/-- The candidate scan of `rankResults`: documents are taken in index
iteration order; one with positive score is pushed; after each iteration the
loop breaks once 100 results have accumulated, so later documents are never
scored. `n` is the number of results accumulated so far. -/
def scanAux (lowerTerms : List String) : Nat → List IndexedFile → List IndexedFile
  | _, [] => []
  | n, f :: fs =>
      if scorePos f lowerTerms then
        if 100 ≤ n + 1 then [f]
        else f :: scanAux lowerTerms (n + 1) fs
      else
        if 100 ≤ n then []
        else scanAux lowerTerms n fs

/-- The candidate scan started with an empty result accumulator. -/
def scanCandidates (lowerTerms : List String) (files : List IndexedFile) : List IndexedFile :=
  scanAux lowerTerms 0 files

/-- Stable insertion of a document into a list sorted by descending score:
it goes before the first document with strictly smaller score, matching the
stable JavaScript sort with comparator `(a, b) => b.score - a.score`. -/
noncomputable def insertByScore (lowerTerms : List String) (a : IndexedFile) :
    List IndexedFile → List IndexedFile
  | [] => [a]
  | b :: bs =>
      if calculateRelevanceScore b lowerTerms ≤ calculateRelevanceScore a lowerTerms then
        a :: b :: bs
      else b :: insertByScore lowerTerms a bs

/-- Stable sort by descending score. -/
noncomputable def sortByScore (lowerTerms : List String) :
    List IndexedFile → List IndexedFile
  | [] => []
  | a :: as => insertByScore lowerTerms a (sortByScore lowerTerms as)

/-- The combined search term set of `rankResults`: keywords, related terms
and the emotion expansion of each keyword, deduplicated in insertion order
(the JavaScript Set). -/
def searchTermsOf (query : ProcessedQuery) : List String :=
  (query.keywords ++ query.relatedTerms ++
    query.keywords.flatMap getRelatedTerms).eraseDups

/-- The search terms, lower-cased once (after deduplication, as in the
source). -/
def lowerSearchTermsOf (query : ProcessedQuery) : List String :=
  (searchTermsOf query).map toLowerStr

/-- Models `rankResults`: empty when there are no search terms, otherwise the
scanned candidates sorted by descending score, truncated to 50. -/
noncomputable def rankResults (s : IndexMap) (query : ProcessedQuery) : List IndexedFile :=
  if (searchTermsOf query).isEmpty then []
  else
    (sortByScore (lowerSearchTermsOf query)
      (scanCandidates (lowerSearchTermsOf query) (mapValues s))).take 50

/-- Models `search`. The query analyzer (NLPProcessor.processQuery) is an
external collaborator passed as a parameter. -/
noncomputable def search (processQuery : String → ProcessedQuery)
    (s : IndexMap) (query : String) : List IndexedFile :=
  if query.length < 2 then []
  else (rankResults s (processQuery query)).take 50

/-- The search method as a state transformer: it returns its results together
with the index map after the call. Every statement of the source method only
reads the map, so the translation returns the input map. -/
noncomputable def searchOp (processQuery : String → ProcessedQuery)
    (s : IndexMap) (query : String) : List IndexedFile × IndexMap :=
  (search processQuery s query, s)

/-! ## Exclusion rules

The plugin entry point (main.ts) calls `setExclusions` and `isFileIndexed`
on the index and relies on exclusion-aware indexing, but the implementation
of those members is not part of the source snapshot; the definitions below
are modelled from the specification (section 4.2) and marked accordingly. -/

/-- The active exclusion state: folder path prefixes and tag names. -/
structure Exclusions where
  folders : List String
  tags : List String
deriving DecidableEq, Repr

/-- Modelled from the spec: folder comparison is a case-insensitive prefix
match on path segments, so a rule excludes a path that equals it or lies
under it as a folder. -/
def excludedByFolder (ex : Exclusions) (path : String) : Bool :=
  ex.folders.any (fun folder =>
    toLowerStr path = toLowerStr folder ||
      startsWithL (toLowerStr path).data (toLowerStr folder ++ "/").data)

/-- Modelled from the spec: tag comparison is a case-insensitive match of the
document tags against a hash sign followed by the rule tag name (document
tags are stored lower-cased by extractTags). -/
def excludedByTags (ex : Exclusions) (tags : List String) : Bool :=
  ex.tags.any (fun t => tags.contains ("#" ++ toLowerStr t))

/-- Modelled from the spec: a document is excluded when its path matches an
excluded folder prefix or its tags match an excluded tag. -/
def isExcluded (ex : Exclusions) (path : String) (tags : List String) : Bool :=
  excludedByFolder ex path || excludedByTags ex tags

/-- Modelled from the spec: `indexDocument` computes tags from the raw text;
if the document is excluded it removes any existing record for the path and
returns without analyzing; otherwise it indexes as `indexFile` does. -/
def indexDocument (analyze : String → ProcessedText) (ex : Exclusions) (s : IndexMap)
    (path filename : String) (mtime : Int) (content : String) : IndexMap :=
  let tags := extractTags content
  if isExcluded ex path tags then mapDelete s path
  else indexFile analyze s path filename mtime content

/-- Modelled from the spec: `updateDocument` is a no-op when a record exists
for the path with an identical modTime, and otherwise behaves as
`indexDocument`. -/
def updateDocument (analyze : String → ProcessedText) (ex : Exclusions) (s : IndexMap)
    (path filename : String) (mtime : Int) (content : String) : IndexMap :=
  match mapGet s path with
  | some existing =>
      if existing.lastModified = mtime then s
      else indexDocument analyze ex s path filename mtime content
  | none => indexDocument analyze ex s path filename mtime content

/-- Modelled from the spec: `removeDocument` deletes the record if present. -/
def removeDocument (s : IndexMap) (path : String) : IndexMap :=
  mapDelete s path

/-- Modelled from the spec: `isIndexed` (called `isFileIndexed` by the plugin
entry point). -/
def isIndexed (s : IndexMap) (path : String) : Bool :=
  (mapGet s path).isSome

/-- One index mutation, for quantifying over operation sequences. -/
inductive IndexOp where
  | indexDoc (path filename : String) (mtime : Int) (content : String)
  | updateDoc (path filename : String) (mtime : Int) (content : String)
  | removeDoc (path : String)

/-- Apply one operation under the active exclusion rules. -/
def applyOp (analyze : String → ProcessedText) (ex : Exclusions)
    (s : IndexMap) : IndexOp → IndexMap
  | .indexDoc p fn mt c => indexDocument analyze ex s p fn mt c
  | .updateDoc p fn mt c => updateDocument analyze ex s p fn mt c
  | .removeDoc p => removeDocument s p

/-- Run a sequence of operations from the empty index under fixed exclusion
rules. -/
def runOps (analyze : String → ProcessedText) (ex : Exclusions)
    (ops : List IndexOp) : IndexMap :=
  ops.foldl (applyOp analyze ex) []

/-! ## Theorems -/

/-- C3: for every query string of length strictly less than 2 and every index
state, search returns the empty sequence, without raising an error and without
consulting the analyzer or the index (the result is the same for every
analyzer and every index state). -/
theorem claim_C3 (processQuery : String → ProcessedQuery) (s : IndexMap)
    (q : String) (h : q.length < 2) :
    search processQuery s q = [] := by
  simp [search, h]

/-- Witness for C3 at a concrete short query, analyzer and state. -/
theorem claim_C3_witness :
    search (fun _ => ⟨"statement", [], [], []⟩) [] "a" = [] :=
  claim_C3 (fun _ => ⟨"statement", [], [], []⟩) [] "a" (by decide)

/-- C4: for every query string and every index state, the sequence returned
by search has length at most 50. -/
theorem claim_C4 (processQuery : String → ProcessedQuery) (s : IndexMap)
    (q : String) :
    (search processQuery s q).length ≤ 50 := by
  unfold search
  split
  · simp
  · exact List.length_take_le 50 _

/-- C10: search is read-only: for every index state and every query string,
the state component returned by the search operation is the unchanged index
map, so the same set of paths is indexed and every stored record is identical
to its value before the call. -/
theorem claim_C10 (processQuery : String → ProcessedQuery) (s : IndexMap)
    (q : String) :
    (searchOp processQuery s q).2 = s ∧
      (∀ p, mapGet (searchOp processQuery s q).2 p = mapGet s p) ∧
      (∀ p, isIndexed (searchOp processQuery s q).2 p = isIndexed s p) :=
  ⟨rfl, fun _ => rfl, fun _ => rfl⟩

/-- C5: the per-term contribution follows the fixed tier order: a whole-word
match in the filename contributes 2 and stops evaluation of later tiers;
otherwise a whole-word match in any structure header contributes 3 and stops;
otherwise a whole-word content match adds 1, else a substring content match
adds 0.5; and only if the accumulated contribution is still below 2 are the
flattened table cells scanned, a whole-word cell match adding 2. -/
theorem claim_C5 (f : IndexedFile) (lowerTerm : String) :
    termContribution f lowerTerm =
      if checkWordBoundary (toLowerStr f.filename) lowerTerm then 2
      else if (f.structuredContent.headers.map toLowerStr).any
          (fun h => checkWordBoundary h lowerTerm) then 3
      else
        let base : ℚ :=
          if checkWordBoundary (contentOf f) lowerTerm then 1
          else if containsSub (contentOf f) lowerTerm then 1/2 else 0
        if base < 2 ∧
            f.tableContent.any (fun t => checkWordBoundary (toLowerStr t) lowerTerm) then
          base + 2
        else base := by
  cases hf : checkWordBoundary (toLowerStr f.filename) lowerTerm <;>
    cases hh : (f.structuredContent.headers.map toLowerStr).any
        (fun h => checkWordBoundary h lowerTerm) <;>
    cases hc : checkWordBoundary (contentOf f) lowerTerm <;>
    cases hs : containsSub (contentOf f) lowerTerm <;>
    cases ht : f.tableContent.any (fun t => checkWordBoundary (toLowerStr t) lowerTerm) <;>
    simp [termContribution, hf, hh, hc, hs, ht]

/-- C6: for every document that passes the fast-rejection check, the final
score equals the raw sum of per-term contributions divided by the natural
logarithm of min(contentLength, 5000) + 1, where contentLength is the length
of the lower-cased space-joined token concatenation; and the denominator
never grows beyond ln 5001. -/
theorem claim_C6 (f : IndexedFile) (lowerTerms : List String)
    (h : quickCheck f lowerTerms = true) :
    calculateRelevanceScore f lowerTerms =
      (rawScore f lowerTerms : ℝ) /
        Real.log ((min (contentOf f).length 5000 : ℕ) + 1) ∧
    Real.log ((min (contentOf f).length 5000 : ℕ) + 1) ≤ Real.log 5001 := by
  refine ⟨by simp [calculateRelevanceScore, h], ?_⟩
  apply Real.log_le_log
  · positivity
  · have hm : min (contentOf f).length 5000 ≤ 5000 := min_le_right _ _
    have : ((min (contentOf f).length 5000 : ℕ) : ℝ) ≤ 5000 := by exact_mod_cast hm
    linarith

/-- Witness for C6 at a concrete document and term list. -/
theorem claim_C6_witness :
    calculateRelevanceScore
        ⟨"a.md", "budget", 1, ⟨["hello"], [], [], 0⟩, [], [], [], ⟨[], [], []⟩⟩
        ["hello"] =
      (rawScore ⟨"a.md", "budget", 1, ⟨["hello"], [], [], 0⟩, [], [], [], ⟨[], [], []⟩⟩
          ["hello"] : ℝ) /
        Real.log ((min (contentOf
          ⟨"a.md", "budget", 1, ⟨["hello"], [], [], 0⟩, [], [], [], ⟨[], [], []⟩⟩).length
            5000 : ℕ) + 1) ∧
    Real.log ((min (contentOf
        ⟨"a.md", "budget", 1, ⟨["hello"], [], [], 0⟩, [], [], [], ⟨[], [], []⟩⟩).length
          5000 : ℕ) + 1) ≤ Real.log 5001 :=
  claim_C6 _ _ (by decide)

/-- Every document kept by the candidate scan has a positive score. -/
lemma scanAux_mem (lowerTerms : List String) :
    ∀ (files : List IndexedFile) (n : Nat) (f : IndexedFile),
      f ∈ scanAux lowerTerms n files → scorePos f lowerTerms = true := by
  intro files
  induction files with
  | nil => intro n f h; simp [scanAux] at h
  | cons a as ih =>
      intro n f h
      by_cases ha : scorePos a lowerTerms = true
      · rw [scanAux, if_pos ha] at h
        by_cases hn : 100 ≤ n + 1
        · rw [if_pos hn] at h
          simp at h
          exact h ▸ ha
        · rw [if_neg hn] at h
          rcases List.mem_cons.mp h with h | h
          · exact h ▸ ha
          · exact ih (n + 1) f h
      · rw [scanAux, if_neg ha] at h
        by_cases hn : 100 ≤ n
        · rw [if_pos hn] at h; simp at h
        · rw [if_neg hn] at h; exact ih n f h

/-- The candidate scan accumulates at most `100 - n` further documents. -/
lemma scanAux_length (lowerTerms : List String) :
    ∀ (files : List IndexedFile) (n : Nat), n < 100 →
      (scanAux lowerTerms n files).length ≤ 100 - n := by
  intro files
  induction files with
  | nil => intro n _; simp [scanAux]
  | cons a as ih =>
      intro n hn
      by_cases ha : scorePos a lowerTerms = true
      · rw [scanAux, if_pos ha]
        by_cases h1 : 100 ≤ n + 1
        · rw [if_pos h1]; simp; omega
        · rw [if_neg h1]
          have := ih (n + 1) (by omega)
          simp only [List.length_cons]
          omega
      · rw [scanAux, if_neg ha, if_neg (by omega : ¬ 100 ≤ n)]
        exact ih n hn

/-- Once 100 qualifying documents are available among the scanned files, the
scan never looks at any appended later files. -/
lemma scanAux_append (lowerTerms : List String) :
    ∀ (files : List IndexedFile) (n : Nat) (gs : List IndexedFile), n < 100 →
      100 ≤ n + files.countP (fun f => scorePos f lowerTerms) →
      scanAux lowerTerms n (files ++ gs) = scanAux lowerTerms n files := by
  intro files
  induction files with
  | nil => intro n gs hn hc; simp at hc; omega
  | cons a as ih =>
      intro n gs hn hc
      rw [List.cons_append]
      by_cases ha : scorePos a lowerTerms = true
      · rw [scanAux, scanAux, if_pos ha, if_pos ha]
        by_cases h1 : 100 ≤ n + 1
        · rw [if_pos h1, if_pos h1]
        · rw [if_neg h1, if_neg h1]
          rw [List.countP_cons, ha] at hc
          simp at hc
          rw [ih (n + 1) gs (by omega) (by omega)]
      · rw [scanAux, scanAux, if_neg ha, if_neg ha,
          if_neg (by omega : ¬ 100 ≤ n), if_neg (by omega : ¬ 100 ≤ n)]
        rw [List.countP_cons] at hc
        simp [ha] at hc
        exact ih n gs hn (by omega)

/-- C7: for every term list and index iteration sequence, the candidate scan
keeps only documents with positive score, accumulates at most 100 qualifying
documents, and once 100 qualifying documents have been accumulated no later
document in index iteration order is ever scored or considered. -/
theorem claim_C7 (lowerTerms : List String) (files : List IndexedFile) :
    (∀ f ∈ scanCandidates lowerTerms files, scorePos f lowerTerms = true) ∧
    (scanCandidates lowerTerms files).length ≤ 100 ∧
    (∀ gs, 100 ≤ files.countP (fun f => scorePos f lowerTerms) →
      scanCandidates lowerTerms (files ++ gs) = scanCandidates lowerTerms files) := by
  refine ⟨fun f hf => scanAux_mem lowerTerms files 0 f hf, ?_, ?_⟩
  · simpa using scanAux_length lowerTerms files 0 (by omega)
  · intro gs hc
    exact scanAux_append lowerTerms files 0 gs (by omega) (by simpa using hc)

/-- Counting a replicated qualifying element. -/
lemma countP_replicate_eq {α : Type} (p : α → Bool) (a : α) (h : p a = true)
    (n : Nat) : (List.replicate n a).countP p = n := by
  induction n with
  | zero => simp
  | succ k ih => simp [List.replicate_succ, List.countP_cons, h, ih]

/-- A document that qualifies in the C7 witness scenario. -/
def witnessFile : IndexedFile :=
  ⟨"w.md", "x", 1, ⟨["x"], [], [], 0⟩, [], [], [], ⟨[], [], []⟩⟩

/-- A later document that the C7 witness shows is never considered. -/
def lateFile : IndexedFile :=
  ⟨"late.md", "x", 1, ⟨["x"], [], [], 0⟩, [], [], [], ⟨[], [], []⟩⟩

/-- The witness document qualifies for the candidate scan. -/
lemma scorePos_witnessFile : scorePos witnessFile ["x"] = true := by
  have hq : quickCheck witnessFile ["x"] = true := by decide
  have hf : checkWordBoundary (toLowerStr witnessFile.filename) "x" = true := by decide
  have hc : termContribution witnessFile "x" = 2 := by
    simp [termContribution, hf]
  simp [scorePos, hq, rawScore, hc]

/-- Witness for C7: with 100 qualifying documents already scanned, an
appended later document is never considered. -/
theorem claim_C7_witness :
    scanCandidates ["x"] (List.replicate 100 witnessFile ++ [lateFile]) =
      scanCandidates ["x"] (List.replicate 100 witnessFile) :=
  (claim_C7 ["x"] (List.replicate 100 witnessFile)).2.2 [lateFile]
    (by rw [countP_replicate_eq (fun f => scorePos f ["x"]) witnessFile
      scorePos_witnessFile 100])

/-- Looking up the key just stored. -/
lemma mapGet_mapSet_self (s : IndexMap) (k : String) (v : IndexedFile) :
    mapGet (mapSet s k v) k = some v := by
  induction s with
  | nil => simp [mapSet, mapGet]
  | cons a as ih =>
      obtain ⟨k', v'⟩ := a
      by_cases h : k' = k <;> simp [mapSet, mapGet, h, ih]

/-- After indexing, the path maps to a record carrying the given mtime. -/
lemma mapGet_indexFile_self (analyze : String → ProcessedText) (s : IndexMap)
    (path filename : String) (mtime : Int) (content : String) :
    ∃ r, mapGet (indexFile analyze s path filename mtime content) path = some r ∧
      r.lastModified = mtime := by
  unfold indexFile
  exact ⟨_, mapGet_mapSet_self _ _ _, rfl⟩

/-- After any update, the path maps to a record carrying the given mtime. -/
lemma mapGet_updateFile_self (analyze : String → ProcessedText) (s : IndexMap)
    (path filename : String) (mtime : Int) (content : String) :
    ∃ r, mapGet (updateFile analyze s path filename mtime content) path = some r ∧
      r.lastModified = mtime := by
  unfold updateFile
  split
  · rename_i r heq
    by_cases hm : r.lastModified = mtime
    · rw [if_pos hm]; exact ⟨r, heq, hm⟩
    · rw [if_neg hm]; exact mapGet_indexFile_self analyze s path filename mtime content
  · exact mapGet_indexFile_self analyze s path filename mtime content

/-- An update whose mtime matches the stored record is a strict no-op and
does not invoke the analyzer. -/
lemma updateFile_stable (analyze : String → ProcessedText) (s : IndexMap)
    (path filename : String) (mtime : Int) (content : String)
    (h : ∃ r, mapGet s path = some r ∧ r.lastModified = mtime) :
    updateFile analyze s path filename mtime content = s ∧
    updateFileAnalyzerCalls s path mtime = 0 := by
  obtain ⟨r, hr, hm⟩ := h
  constructor
  · simp [updateFile, hr, hm]
  · simp [updateFileAnalyzerCalls, hr, hm]

/-- C8: for every path present in the index, the second of two identical
updateDocument calls is a no-op — the stored record is unchanged and the
analyzer is not invoked again; and when the stored modTime differs from the
given one, updateDocument behaves exactly as indexDocument and performs the
analysis once. -/
theorem claim_C8 (analyze : String → ProcessedText) (s : IndexMap)
    (path filename : String) (mtime : Int) (content : String)
    (_hpresent : (mapGet s path).isSome = true) :
    (updateFile analyze (updateFile analyze s path filename mtime content)
        path filename mtime content =
        updateFile analyze s path filename mtime content ∧
      updateFileAnalyzerCalls (updateFile analyze s path filename mtime content)
        path mtime = 0) ∧
    (∀ r, mapGet s path = some r → r.lastModified ≠ mtime →
      updateFile analyze s path filename mtime content =
        indexFile analyze s path filename mtime content ∧
      updateFileAnalyzerCalls s path mtime = 1) := by
  refine ⟨?_, ?_⟩
  · exact updateFile_stable analyze _ path filename mtime content
      (mapGet_updateFile_self analyze s path filename mtime content)
  · intro r hr hne
    constructor
    · simp [updateFile, hr, hne]
    · simp [updateFileAnalyzerCalls, hr, hne]

/-- The analyzer used by concrete witnesses. -/
def witnessAnalyzer : String → ProcessedText :=
  fun _ => ⟨[], [], [], 0⟩

/-- The record stored for the C8 witness, with mtime 5. -/
def c8Record : IndexedFile :=
  ⟨"a.md", "a", 5, ⟨[], [], [], 0⟩, [], [], [], ⟨[], [], []⟩⟩

/-- The C8 witness state: one record for the path, stored with mtime 5. -/
def c8State : IndexMap := [("a.md", c8Record)]

/-- Witness for C8 at a concrete state and arguments: the path is present
with mtime 5, the update uses mtime 7, so the first call analyzes once, the
second identical call is a no-op with no analyzer invocation. -/
theorem claim_C8_witness :
    (updateFile witnessAnalyzer (updateFile witnessAnalyzer c8State "a.md" "a" 7 "hi")
        "a.md" "a" 7 "hi" =
        updateFile witnessAnalyzer c8State "a.md" "a" 7 "hi" ∧
      updateFileAnalyzerCalls (updateFile witnessAnalyzer c8State "a.md" "a" 7 "hi")
        "a.md" 7 = 0) ∧
    (updateFile witnessAnalyzer c8State "a.md" "a" 7 "hi" =
        indexFile witnessAnalyzer c8State "a.md" "a" 7 "hi" ∧
      updateFileAnalyzerCalls c8State "a.md" 7 = 1) := by
  have h := claim_C8 witnessAnalyzer c8State "a.md" "a" 7 "hi" (by decide)
  exact ⟨h.1, h.2 c8Record (by decide) (by decide)⟩

/-- Deleting a key removes it from lookups. -/
lemma mapGet_mapDelete_self (s : IndexMap) (p : String) :
    mapGet (mapDelete s p) p = none := by
  induction s with
  | nil => simp [mapDelete, mapGet]
  | cons a as ih =>
      obtain ⟨k, v⟩ := a
      by_cases h : k = p <;> simp [mapDelete, List.filter, mapGet, h] at ih ⊢ <;>
        simpa [mapDelete] using ih

/-- Deleting one key leaves other lookups unchanged. -/
lemma mapGet_mapDelete_ne (s : IndexMap) (p q : String) (h : q ≠ p) :
    mapGet (mapDelete s p) q = mapGet s q := by
  induction s with
  | nil => rfl
  | cons a as ih =>
      obtain ⟨k, v⟩ := a
      by_cases hk : k = p
      · have hdrop : mapDelete ((k, v) :: as) p = mapDelete as p := by
          simp [mapDelete, List.filter, hk]
        have hkq : k ≠ q := by rw [hk]; exact fun hh => h hh.symm
        rw [hdrop, ih]
        simp [mapGet, hkq]
      · have hkeep : mapDelete ((k, v) :: as) p = (k, v) :: mapDelete as p := by
          simp [mapDelete, List.filter, hk]
        rw [hkeep]
        by_cases hq : k = q <;> simp [mapGet, hq, ih]

/-- Storing under one key leaves other lookups unchanged. -/
lemma mapGet_mapSet_ne (s : IndexMap) (k : String) (v : IndexedFile)
    (q : String) (h : q ≠ k) :
    mapGet (mapSet s k v) q = mapGet s q := by
  have hkq : k ≠ q := fun hh => h hh.symm
  induction s with
  | nil => simp [mapSet, mapGet, hkq]
  | cons a as ih =>
      obtain ⟨k', v'⟩ := a
      by_cases hk : k' = k
      · subst hk
        simp [mapSet, mapGet, hkq]
      · by_cases hq : k' = q <;> simp [mapSet, mapGet, hk, hq, ih, h]

/-- Membership after an upsert: the new entry or an old one. -/
lemma mem_mapSet (s : IndexMap) (k : String) (v : IndexedFile)
    (pr : String × IndexedFile) (h : pr ∈ mapSet s k v) :
    pr = (k, v) ∨ pr ∈ s := by
  induction s with
  | nil => simpa [mapSet] using h
  | cons a as ih =>
      obtain ⟨k', v'⟩ := a
      by_cases hk : k' = k
      · subst hk
        simp [mapSet] at h
        rcases h with h | h
        · left; simp [h]
        · right; simp [h]
      · simp [mapSet, hk] at h
        rcases h with h | h
        · right; simp [h]
        · rcases ih h with h | h
          · left; exact h
          · right; simp [h]

/-- Membership after a delete implies membership before. -/
lemma mem_mapDelete (s : IndexMap) (p : String)
    (pr : String × IndexedFile) (h : pr ∈ mapDelete s p) : pr ∈ s :=
  List.mem_of_mem_filter h

/-- The two exclusion invariants: no folder-excluded path is indexed, and no
stored record has an excluded tag. -/
def ExclusionInv (ex : Exclusions) (s : IndexMap) : Prop :=
  (∀ p, excludedByFolder ex p = true → mapGet s p = none) ∧
  (∀ pr ∈ s, excludedByTags ex pr.2.tags = false)

/-- Deletion preserves the exclusion invariants. -/
lemma exclusionInv_mapDelete (ex : Exclusions) (s : IndexMap) (q : String)
    (h : ExclusionInv ex s) : ExclusionInv ex (mapDelete s q) := by
  obtain ⟨h1, h2⟩ := h
  constructor
  · intro p hp
    by_cases hq : p = q
    · subst hq; exact mapGet_mapDelete_self s p
    · rw [mapGet_mapDelete_ne s q p hq]; exact h1 p hp
  · intro pr hpr
    exact h2 pr (mem_mapDelete s q pr hpr)

/-- indexDocument preserves the exclusion invariants. -/
lemma exclusionInv_indexDocument (analyze : String → ProcessedText)
    (ex : Exclusions) (s : IndexMap) (path filename : String) (mtime : Int)
    (content : String) (h : ExclusionInv ex s) :
    ExclusionInv ex (indexDocument analyze ex s path filename mtime content) := by
  obtain ⟨h1, h2⟩ := h
  unfold indexDocument
  by_cases hex : isExcluded ex path (extractTags content) = true
  · rw [if_pos hex]
    exact exclusionInv_mapDelete ex s path ⟨h1, h2⟩
  · rw [if_neg hex]
    have hfold : excludedByFolder ex path = false := by
      cases hf : excludedByFolder ex path
      · rfl
      · exact absurd (by simp [isExcluded, hf]) hex
    have htags : excludedByTags ex (extractTags content) = false := by
      cases ht : excludedByTags ex (extractTags content)
      · rfl
      · exact absurd (by simp [isExcluded, ht]) hex
    constructor
    · intro p hp
      have hne : p ≠ path := fun hpp => by
        rw [hpp, hfold] at hp; exact Bool.false_ne_true hp
      rw [indexFile, mapGet_mapSet_ne s path _ p hne]
      exact h1 p hp
    · intro pr hpr
      rcases mem_mapSet _ path _ pr hpr with hnew | hold
      · rw [hnew]
        exact htags
      · exact h2 pr hold

/-- Every operation preserves the exclusion invariants. -/
lemma exclusionInv_applyOp (analyze : String → ProcessedText) (ex : Exclusions)
    (s : IndexMap) (op : IndexOp) (h : ExclusionInv ex s) :
    ExclusionInv ex (applyOp analyze ex s op) := by
  cases op with
  | indexDoc p fn mt c => exact exclusionInv_indexDocument analyze ex s p fn mt c h
  | removeDoc p => exact exclusionInv_mapDelete ex s p h
  | updateDoc p fn mt c =>
      show ExclusionInv ex (updateDocument analyze ex s p fn mt c)
      unfold updateDocument
      split
      · split
        · exact h
        · exact exclusionInv_indexDocument analyze ex s p fn mt c h
      · exact exclusionInv_indexDocument analyze ex s p fn mt c h

/-- Any operation sequence from the empty index keeps the invariants. -/
lemma exclusionInv_runOps (analyze : String → ProcessedText) (ex : Exclusions)
    (ops : List IndexOp) : ExclusionInv ex (runOps analyze ex ops) := by
  suffices h : ∀ (l : List IndexOp) (s : IndexMap), ExclusionInv ex s →
      ExclusionInv ex (l.foldl (applyOp analyze ex) s) by
    exact h ops [] ⟨fun _ _ => rfl, fun pr hpr => absurd hpr (List.not_mem_nil pr)⟩
  intro l
  induction l with
  | nil => intro s hs; exact hs
  | cons op rest ih =>
      intro s hs
      exact ih (applyOp analyze ex s op) (exclusionInv_applyOp analyze ex s op hs)

/-- C2 (spec-modelled operations): under fixed exclusion rules, after any
sequence of index operations from the empty index no folder-excluded path is
indexed and no stored record has an excluded tag; and indexDocument on an
excluded document removes any existing record for the path, returns without
invoking the analyzer (its result does not depend on the analyzer), and
leaves isIndexed false for that path regardless of content. -/
theorem claim_C2 (analyze : String → ProcessedText) (ex : Exclusions) :
    (∀ ops p, excludedByFolder ex p = true →
      isIndexed (runOps analyze ex ops) p = false) ∧
    (∀ ops pr, pr ∈ runOps analyze ex ops →
      excludedByTags ex pr.2.tags = false) ∧
    (∀ s path filename mtime content,
      isExcluded ex path (extractTags content) = true →
      indexDocument analyze ex s path filename mtime content = mapDelete s path ∧
      (∀ analyze', indexDocument analyze ex s path filename mtime content =
        indexDocument analyze' ex s path filename mtime content) ∧
      isIndexed (indexDocument analyze ex s path filename mtime content) path = false) := by
  refine ⟨?_, ?_, ?_⟩
  · intro ops p hp
    have h := (exclusionInv_runOps analyze ex ops).1 p hp
    simp [isIndexed, h]
  · intro ops pr hpr
    exact (exclusionInv_runOps analyze ex ops).2 pr hpr
  · intro s path filename mtime content hex
    refine ⟨by simp [indexDocument, hex], ?_, ?_⟩
    · intro analyze'
      simp [indexDocument, hex]
    · simp [indexDocument, hex, isIndexed, mapGet_mapDelete_self]

/-- Witness for C2: a document under an excluded folder is indexed and stays
out of the index, and the excluded-path indexDocument facts hold at a
concrete state and content. -/
theorem claim_C2_witness :
    isIndexed
      (runOps witnessAnalyzer ⟨["Secret"], ["private"]⟩
        [.indexDoc "secret/a.md" "a" 1 "hello"]) "secret/a.md" = false ∧
    indexDocument witnessAnalyzer ⟨["Secret"], ["private"]⟩ c8State
        "x.md" "x" 1 "note #Private stuff" = mapDelete c8State "x.md" := by
  constructor
  · exact (claim_C2 witnessAnalyzer ⟨["Secret"], ["private"]⟩).1
      [.indexDoc "secret/a.md" "a" 1 "hello"] "secret/a.md" (by decide)
  · exact ((claim_C2 witnessAnalyzer ⟨["Secret"], ["private"]⟩).2.2 c8State
      "x.md" "x" 1 "note #Private stuff" (by decide)).1

/-! ## C9: frontmatter claims -/

/-- The condition as the claim states it: the text begins with a line of
exactly three dashes and a later line consists of exactly three dashes. -/
def c9ClaimCond (content : String) : Bool :=
  match splitOnChar '\n' content with
  | [] => false
  | l0 :: rest => l0 = "---" && rest.contains "---"

/-- Counterexample to C9 as stated: in this text no later line consists of
exactly three dashes (the only candidate has four), yet the source regex
accepts the four-dash line as a closing delimiter and extraction returns a
nonempty mapping. -/
theorem claim_C9_counterexample :
    c9ClaimCond "---\na: b\n----" = false ∧
    extractFrontmatter "---\na: b\n----" = [("a", "b")] := by
  constructor <;> decide

/-- The lazy capture fails exactly when no newline-plus-three-dashes occurs. -/
lemma fmFindCap_eq_none_iff (cs : List Char) :
    fmFindCap cs = none ↔ containsSubL cs ['\n', '-', '-', '-'] = false := by
  induction cs with
  | nil => simp [fmFindCap, containsSubL, startsWithL]
  | cons c rest ih =>
      by_cases hs : startsWithL (c :: rest) ['\n', '-', '-', '-'] = true
      · rw [fmFindCap, if_pos hs, containsSubL, hs]
        simp
      · rw [fmFindCap, if_neg hs, containsSubL,
          (Bool.not_eq_true _).mp hs]
        simp [ih]

/-- Membership after a frontmatter insert: the new pair or an old one. -/
lemma mem_fmInsert (acc : List (String × String)) (k v : String)
    (kv : String × String) (h : kv ∈ fmInsert acc k v) :
    kv = (k, v) ∨ kv ∈ acc := by
  induction acc with
  | nil => simpa [fmInsert] using h
  | cons a as ih =>
      obtain ⟨k', v'⟩ := a
      by_cases hk : k' = k
      · subst hk
        simp [fmInsert] at h
        rcases h with h | h
        · left; simp [h]
        · right; simp [h]
      · simp [fmInsert, hk] at h
        rcases h with h | h
        · right; simp [h]
        · rcases ih h with h | h
          · left; exact h
          · right; simp [h]

/-- Every pair produced by one line step is the old accumulator content or
arises from splitting that line on its first colon. -/
lemma mem_fmStep (acc : List (String × String)) (line : String)
    (kv : String × String) (h : kv ∈ fmStep acc line) :
    kv ∈ acc ∨ ∃ key vals, splitOnChar ':' line = key :: vals ∧ vals ≠ [] ∧
      key ≠ "" ∧ kv = (trimStr key, trimStr (String.intercalate ":" vals)) := by
  unfold fmStep at h
  cases hs : splitOnChar ':' line with
  | nil =>
      rw [hs] at h
      dsimp only at h
      exact Or.inl h
  | cons key vals =>
      rw [hs] at h
      dsimp only at h
      by_cases hv : vals.isEmpty = true
      · rw [if_pos hv] at h; exact Or.inl h
      · rw [if_neg hv] at h
        by_cases hk : key = ""
        · rw [if_pos hk] at h; exact Or.inl h
        · rw [if_neg hk] at h
          rcases mem_fmInsert acc _ _ kv h with he | hm
          · exact Or.inr ⟨key, vals, rfl, by simpa using hv, hk, he⟩
          · exact Or.inl hm

/-- Every pair in the folded mapping arises from some processed line. -/
lemma mem_fmFold :
    ∀ (lines : List String) (acc : List (String × String)) (kv : String × String),
      kv ∈ lines.foldl fmStep acc →
      kv ∈ acc ∨ ∃ line ∈ lines, ∃ key vals,
        splitOnChar ':' line = key :: vals ∧ vals ≠ [] ∧ key ≠ "" ∧
        kv = (trimStr key, trimStr (String.intercalate ":" vals)) := by
  intro lines
  induction lines with
  | nil => intro acc kv h; exact Or.inl h
  | cons line rest ih =>
      intro acc kv h
      rw [List.foldl_cons] at h
      rcases ih (fmStep acc line) kv h with hacc | ⟨l, hl, key, vals, h1, h2, h3, h4⟩
      · rcases mem_fmStep acc line kv hacc with h1 | ⟨key, vals, h1, h2, h3, h4⟩
        · exact Or.inl h1
        · exact Or.inr ⟨line, by simp, key, vals, h1, h2, h3, h4⟩
      · exact Or.inr ⟨l, by simp [hl], key, vals, h1, h2, h3, h4⟩

/-- C9 (amended): frontmatter extraction is total; if the text does not begin
with dash-dash-dash-newline, or no later newline is immediately followed by
three dashes (the closing dashes need only start a line, not form a whole
line of their own), the result is the empty mapping; and every produced pair
comes from a captured line split at its first colon into a nonempty key and
at least one value part, both sides trimmed. -/
theorem claim_C9_amended (content : String) :
    ((startsWithL content.data ['-', '-', '-', '\n'] = false ∨
        containsSubL (content.data.drop 4) ['\n', '-', '-', '-'] = false) →
      extractFrontmatter content = []) ∧
    (∀ kv ∈ extractFrontmatter content, ∃ cap, fmMatch content = some cap ∧
      ∃ line ∈ splitOnChar '\n' cap, ∃ key vals,
        splitOnChar ':' line = key :: vals ∧ vals ≠ [] ∧ key ≠ "" ∧
        kv = (trimStr key, trimStr (String.intercalate ":" vals))) := by
  constructor
  · intro h
    have hm : fmMatch content = none := by
      unfold fmMatch
      rcases h with h | h
      · rw [if_neg (by simp [h])]
      · rw [(fmFindCap_eq_none_iff _).mpr h]
        split <;> rfl
    simp [extractFrontmatter, hm]
  · intro kv hkv
    unfold extractFrontmatter at hkv
    cases hm : fmMatch content with
    | none => rw [hm] at hkv; simp at hkv
    | some cap =>
        rw [hm] at hkv
        rcases mem_fmFold (splitOnChar '\n' cap) [] kv hkv with h | h
        · simp at h
        · exact ⟨cap, rfl, h⟩

/-- Witness for C9 (amended) at a concrete text with no frontmatter. -/
theorem claim_C9_amended_witness :
    extractFrontmatter "hello" = [] :=
  (claim_C9_amended "hello").1 (Or.inl (by decide))

/-! ## C1: title search -/

/-- A query analyzer that returns the lower-cased query as the sole keyword
(what the NLP collaborator does for a single plain noun). -/
def identityQueryAnalyzer : String → ProcessedQuery :=
  fun q => ⟨"statement", [toLowerStr q], [], []⟩

/-- A document whose filename is exactly "budget" but whose token content
does not contain that word. -/
def c1Doc : IndexedFile :=
  ⟨"budget.md", "budget", 1, ⟨["hello"], [], [], 0⟩, [], [], [], ⟨[], [], []⟩⟩

/-- The index state holding only that document. -/
def c1State : IndexMap := [("budget.md", c1Doc)]

/-- Counterexample to C1 as stated: the index holds a document whose
filename equals the query exactly, yet search returns the empty sequence —
the fast-rejection step of calculateRelevanceScore only looks at the token
content, so a pure title match is discarded and is in particular not a
Pass 1 result ranked above anything. -/
theorem claim_C1_counterexample :
    mapGet c1State "budget.md" = some c1Doc ∧
    c1Doc.filename = "budget" ∧
    search identityQueryAnalyzer c1State "budget" = [] := by
  refine ⟨rfl, rfl, ?_⟩
  have hsp : scorePos c1Doc ["budget"] = false := by decide
  have hterms : searchTermsOf (identityQueryAnalyzer "budget") = ["budget"] := by decide
  have hlower : lowerSearchTermsOf (identityQueryAnalyzer "budget") = ["budget"] := by decide
  rw [search, if_neg (by decide : ¬ ("budget".length < 2))]
  rw [rankResults, hlower, if_neg (by rw [hterms]; decide)]
  simp [scanCandidates, scanAux, mapValues, c1State, hsp, sortByScore]

/-- Per-term contributions are never negative. -/
lemma termContribution_nonneg (f : IndexedFile) (lowerTerm : String) :
    0 ≤ termContribution f lowerTerm := by
  cases hf : checkWordBoundary (toLowerStr f.filename) lowerTerm <;>
    cases hh : (f.structuredContent.headers.map toLowerStr).any
        (fun h => checkWordBoundary h lowerTerm) <;>
    cases hc : checkWordBoundary (contentOf f) lowerTerm <;>
    cases hs : containsSub (contentOf f) lowerTerm <;>
    cases ht : f.tableContent.any (fun t => checkWordBoundary (toLowerStr t) lowerTerm) <;>
    simp [termContribution, hf, hh, hc, hs, ht] <;> norm_num

/-- A list sum is positive when one summand is positive and none negative. -/
lemma sum_pos_of_mem {l : List String} {f : String → ℚ} {a : String}
    (ha : a ∈ l) (hpos : 0 < f a) (hnn : ∀ x ∈ l, 0 ≤ f x) :
    0 < (l.map f).sum := by
  induction l with
  | nil => simp at ha
  | cons b bs ih =>
      simp only [List.map_cons, List.sum_cons]
      rcases List.mem_cons.mp ha with rfl | hmem
      · have hrest : 0 ≤ (bs.map f).sum :=
          List.sum_nonneg (by
            intro x hx
            rcases List.mem_map.mp hx with ⟨y, hy, rfl⟩
            exact hnn y (List.mem_cons_of_mem _ hy))
        linarith
      · have hb : 0 ≤ f b := hnn b (List.mem_cons_self _ _)
        have := ih hmem (fun x hx => hnn x (List.mem_cons_of_mem _ hx))
        linarith

/-- C1 (amended): there is no pass pipeline — search produces a single list
sorted by descending normalized score, truncated to 50 — and an exact title
match is returned only if it also survives the content-only fast rejection:
on a one-document index, when the query is at least two characters, the
lower-cased query is among the derived search terms, it matches the filename
as a whole word, and it occurs in the token content, search returns exactly
that document. -/
theorem claim_C1_amended (processQuery : String → ProcessedQuery) (p : String)
    (d : IndexedFile) (q : String)
    (hlen : 2 ≤ q.length)
    (hterm : toLowerStr q ∈ lowerSearchTermsOf (processQuery q))
    (hfn : checkWordBoundary (toLowerStr d.filename) (toLowerStr q) = true)
    (hsub : containsSub (contentOf d) (toLowerStr q) = true) :
    search processQuery [(p, d)] q = [d] := by
  have hne : ¬ (q.length < 2) := by omega
  have hterms_ne : ¬ ((searchTermsOf (processQuery q)).isEmpty = true) := by
    rcases List.mem_map.mp hterm with ⟨a, ha, _⟩
    intro hempty
    rw [List.isEmpty_iff.mp hempty] at ha
    exact List.not_mem_nil a ha
  have hquick : quickCheck d (lowerSearchTermsOf (processQuery q)) = true := by
    unfold quickCheck
    rw [List.any_eq_true]
    exact ⟨toLowerStr q, hterm, hsub⟩
  have hcontrib : termContribution d (toLowerStr q) = 2 := by
    simp [termContribution, hfn]
  have hraw : 0 < rawScore d (lowerSearchTermsOf (processQuery q)) := by
    refine sum_pos_of_mem hterm ?_ ?_
    · rw [hcontrib]; norm_num
    · intro x _
      exact termContribution_nonneg d x
  have hsp : scorePos d (lowerSearchTermsOf (processQuery q)) = true := by
    simp [scorePos, hquick, hraw]
  rw [search, if_neg hne, rankResults, if_neg hterms_ne]
  simp [scanCandidates, scanAux, mapValues, hsp, sortByScore, insertByScore]

/-- A document whose filename and content both contain the query word. -/
def c1GoodDoc : IndexedFile :=
  ⟨"budget.md", "budget", 1, ⟨["budget"], [], [], 0⟩, [], [], [], ⟨[], [], []⟩⟩

/-- Witness for C1 (amended) at a concrete analyzer, document and query. -/
theorem claim_C1_amended_witness :
    search identityQueryAnalyzer [("budget.md", c1GoodDoc)] "budget" = [c1GoodDoc] :=
  claim_C1_amended identityQueryAnalyzer "budget.md" c1GoodDoc "budget"
    (by decide) (by decide) (by decide) (by decide)

end SmartSearch
